import Mathlib

/-!
Verification of the Emo-Check image-processing backend
(`backend/image_processing.py` and the boundary layer `backend/app.py`)
against its natural-language specification.

The Python code is shallowly embedded. Images are rectangular grids with a
functional pixel map, byte buffers are lists of naturals, fallible code
returns `Except`, exact rational / real arithmetic replaces the floating
point of numpy. The OpenCV and scikit-learn library calls that the code
delegates to (decoding, linear-interpolation resizing, k-means) are taken
as explicit function parameters wherever their pixel-level output does not
matter to a property, so every theorem quantifies over the library
behaviour that the repository code does not control; the parts of their
contracts the code does rely on (assertion failures, output shapes,
nearest-neighbour index arithmetic) are modelled explicitly.
-/

/-- A pixel: three 8-bit channels (BGR order as decoded by `cv2.imdecode`;
channel order is an internal detail). -/
abbrev Pix := ℕ × ℕ × ℕ

/-- A decoded raster image: width, height and a pixel map
(`px x y` is the pixel in column `x`, row `y`). -/
structure Img where
  w : ℕ
  h : ℕ
  px : ℕ → ℕ → Pix

/-- Python exception kinds raised by the embedded code. `valueError` models
the explicit `raise ValueError(...)` statements in `image_processing.py`;
`cvError` models `cv2.error` raised by a failed OpenCV internal assertion. -/
inductive PyExn where
  | valueError (msg : String)
  | cvError (msg : String)
deriving DecidableEq

/-- Message of the `ValueError` raised by every transform when
`cv2.imdecode` returns `None` (image_processing.py lines 34, 87, 135). -/
def decodeFailMsg : String := "画像の読み込みに失敗しました"

/-- Stands for the `cv2.error` raised by `cv2.resize` when the requested
destination size has a zero component (OpenCV asserts a non-empty dsize). -/
def resizeEmptyMsg : String := "cv2.resize: empty destination size"

/-- Stands for the `cv2.error` raised by `cv2.kmeans` when the number of
samples is smaller than the number of clusters (OpenCV asserts N >= K). -/
def kmeansAssertMsg : String := "cv2.kmeans: fewer samples than clusters"

/-- `cv2.resize(src, (w, h), interpolation=cv2.INTER_NEAREST)`: destination
pixel `(x, y)` reads source pixel `(⌊x·sw/w⌋, ⌊y·sh/h⌋)`, clamped into the
source bounds. -/
def nnResize (src : Img) (w h : ℕ) : Img :=
  ⟨w, h, fun x y =>
    src.px (min (x * src.w / w) (src.w - 1)) (min (y * src.h / h) (src.h - 1))⟩

/-- Model of `apply_pixel_art` after decoding (image_processing.py lines
89-110).  `lin` stands for `cv2.resize(..., INTER_LINEAR)` (only its output
dimensions matter to any claim, so it is a parameter); `quant` stands for
the colour quantisation of the shrunken image by the unseeded
`cv2.kmeans(..., KMEANS_RANDOM_CENTERS)` call (lines 98-107), which
consumes the ambient random state `rng` and returns an image of the same
shape (`quantized.reshape(small.shape)`).  The two error branches model the
OpenCV assertions that fire, in the source's order of execution, when the
downscale target is empty (`small_width` or `small_height` is zero: the
code computes `width // pixel_size` with no clamping) and when `cv2.kmeans`
receives fewer samples than `color_count` clusters. -/
def applyPixelArtImg (lin : Img → ℕ → ℕ → Img) (quant : ℕ → Img → Img)
    (rng : ℕ) (image : Img) (pixel_size color_count : ℕ) : Except PyExn Img :=
  let small_width := image.w / pixel_size
  let small_height := image.h / pixel_size
  if small_width = 0 ∨ small_height = 0 then
    .error (.cvError resizeEmptyMsg)
  else
    let small := lin image small_width small_height
    if small.w * small.h < color_count then
      .error (.cvError kmeansAssertMsg)
    else
      .ok (nnResize (quant rng small) image.w image.h)

/-- A stand-in for `cv2.resize(..., INTER_LINEAR)` used to instantiate
theorems at concrete inputs: returns an all-black image of the requested
size (theorems only ever assume the resize returns the requested size). -/
def linStub : Img → ℕ → ℕ → Img := fun _ w h => ⟨w, h, fun _ _ => (0, 0, 0)⟩

/-- A stand-in quantisation outcome: the identity (a possible `cv2.kmeans`
outcome whenever the image has at most `color_count` distinct colours). -/
def quantStub : ℕ → Img → Img := fun _ i => i

/-- A 7×7 input image (smaller than the default cell size 8). -/
def img7 : Img := ⟨7, 7, fun _ _ => (0, 0, 0)⟩

/-- An 8×8 input image (exactly one cell). -/
def img8 : Img := ⟨8, 8, fun _ _ => (0, 0, 0)⟩

/-- A 64×64 input image (dimensions divisible by 8, 64 reduced pixels). -/
def img64 : Img := ⟨64, 64, fun _ _ => (0, 0, 0)⟩

/-- An 84×16 input image: width not divisible by the cell size 8. -/
def imgC6 : Img := ⟨84, 16, fun _ _ => (0, 0, 0)⟩

/-- A linear-resize outcome for the C6 counterexample: the shrunken image
has pixel colour `(x, 0, 0)` in column `x` (at most `small_width ≤ 16`
distinct colours, so the identity is a possible quantisation of it). -/
def linC6 : Img → ℕ → ℕ → Img := fun _ w h => ⟨w, h, fun x _ => (x, 0, 0)⟩

/-- One entry of an extracted palette (`extract_color_palette`'s result
items): the integer RGB triple and the percentage, one decimal place.  The
hex string of the source is a direct reformatting of the rgb triple and is
omitted. -/
structure Swatch where
  rgb : ℤ × ℤ × ℤ
  percentage : ℚ
deriving DecidableEq

/-- Python's `int(...)` applied to a float: truncation toward zero. -/
def pyInt (q : ℚ) : ℤ := if q < 0 then -⌊-q⌋ else ⌊q⌋

/-- Python's `round(x, 1)`: round to one decimal place, ties to the even
multiple of one tenth (banker's rounding, as Python's `round` performs on
the exact value). -/
def pyRound1 (q : ℚ) : ℚ :=
  let t := 10 * q
  let n : ℤ :=
    if t - ⌊t⌋ = 1 / 2 then (if 2 ∣ ⌊t⌋ then ⌊t⌋ else ⌊t⌋ + 1)
    else round t
  (n : ℚ) / 10

/-- The rounding the specification describes for a centroid channel:
round to the nearest integer (not truncation).  Used only to state what
the spec claims, for comparison with the source's `pyInt`. -/
def specRoundNearest (q : ℚ) : ℤ := round q

/-- One palette entry as built by image_processing.py lines 55-62:
channels truncated with `int(...)`, percentage `count / total * 100`
rounded to one decimal place. -/
def mkSwatch (center : ℚ × ℚ × ℚ) (count total : ℕ) : Swatch :=
  ⟨(pyInt center.1, pyInt center.2.1, pyInt center.2.2),
   pyRound1 ((count : ℚ) / (total : ℚ) * 100)⟩

/-- Insertion step of a stable descending sort by percentage, modelling
Python's stable `list.sort(key=..., reverse=True)` (line 65). -/
def insertDesc (s : Swatch) : List Swatch → List Swatch
  | [] => [s]
  | t :: ts =>
    if t.percentage < s.percentage then s :: t :: ts else t :: insertDesc s ts

/-- Stable descending sort by percentage (line 65). -/
def sortDesc : List Swatch → List Swatch
  | [] => []
  | s :: ss => insertDesc s (sortDesc ss)

/-- The palette-formatting step of `extract_color_palette`
(image_processing.py lines 54-65): `zip(kmeans.cluster_centers_,
percentages)` — which silently truncates to the shorter list when some
cluster is empty — followed by the per-entry formatting and the descending
sort. -/
def formatColors (centers : List (ℚ × ℚ × ℚ)) (counts : List ℕ)
    (total : ℕ) : List Swatch :=
  sortDesc ((centers.zip counts).map fun p => mkSwatch p.1 p.2 total)

/-- One step of `np.unique(labels, return_counts=True)`: insert a label
into an ascending association list of (label, count) pairs. -/
def addLabel (x : ℕ) : List (ℕ × ℕ) → List (ℕ × ℕ)
  | [] => [(x, 1)]
  | (v, n) :: rest =>
    if x < v then (x, 1) :: (v, n) :: rest
    else if x = v then (v, n + 1) :: rest
    else (v, n) :: addLabel x rest

/-- `np.unique(labels, return_counts=True)` (line 50): the ascending list
of distinct labels paired with their multiplicities. -/
def uniqueCounts (labels : List ℕ) : List (ℕ × ℕ) := labels.foldr addLabel []

/-- Result of a `sklearn.cluster.KMeans(...).fit`: the cluster centroids
(`cluster_centers_`, exact rational means) and the per-sample labels
(`labels_`). -/
structure KMeansOut where
  centers : List (ℚ × ℚ × ℚ)
  labels : List ℕ

/-- Row-major flattening `image.reshape(-1, 3)` (line 43). -/
def pixelList (image : Img) : List Pix :=
  (List.range (image.w * image.h)).map fun i => image.px (i % image.w) (i / image.w)

/-- Model of `extract_color_palette` (image_processing.py lines 18-67).
`dec` stands for `cv2.imdecode` (`None` on an undecodable buffer — the
code raises `ValueError` in that case), `lin` for the
`cv2.resize(..., (150, 150))` downscale, and `km` for
`sklearn.cluster.KMeans(n_clusters, random_state, n_init=10).fit`: its
first argument is the `random_state` passed by the caller, and the source
passes the fixed seed 42, never the ambient random state `rng` (which the
model therefore threads but the function cannot consume). -/
def extract_color_palette (dec : List ℕ → Option Img)
    (lin : Img → ℕ → ℕ → Img) (km : ℕ → List Pix → ℕ → KMeansOut)
    (rng : ℕ) (image_bytes : List ℕ) (n_colors : ℕ) :
    Except PyExn (List Swatch) :=
  match dec image_bytes with
  | none => .error (.valueError decodeFailMsg)
  | some image =>
    let image_small := lin image 150 150
    let pixels := pixelList image_small
    let out := km 42 pixels n_colors
    let counts := (uniqueCounts out.labels).map (fun p => p.2)
    .ok (formatColors out.centers counts out.labels.length)

/-- Model of the byte-level `apply_pixel_art` entry point
(image_processing.py lines 70-114): decode check, then the raster
pipeline.  The final `cv2.imencode('.png', ...)` is a lossless re-encoding
and is left out: the model returns the raster result. -/
def apply_pixel_art (dec : List ℕ → Option Img) (lin : Img → ℕ → ℕ → Img)
    (quant : ℕ → Img → Img) (rng : ℕ) (image_bytes : List ℕ)
    (pixel_size color_count : ℕ) : Except PyExn Img :=
  match dec image_bytes with
  | none => .error (.valueError decodeFailMsg)
  | some image => applyPixelArtImg lin quant rng image pixel_size color_count

/-- Model of the byte-level `apply_y2k_film` entry point as far as claim
C2 concerns it (image_processing.py lines 117-135): the decode check of
lines 131-135, with the five-stage film pipeline abstracted as `pipeline`
(the vignette stage is modelled in detail separately below). -/
def apply_y2k_film (dec : List ℕ → Option Img) (pipeline : Img → Img)
    (image_bytes : List ℕ) : Except PyExn Img :=
  match dec image_bytes with
  | none => .error (.valueError decodeFailMsg)
  | some image => .ok (pipeline image)

/-- The HTTP status returned by the `/boost` handler (app.py lines
329-391): unknown filter names get 400; any exception raised by a
transform — a decode failure's `ValueError` as much as an internal
`cv2.error` — is caught by the blanket `except Exception` and mapped to
500.  (The content-type and HEIC checks, which do not depend on the body
bytes' decodability, are not modelled.) -/
def boostStatus (dec : List ℕ → Option Img) (lin : Img → ℕ → ℕ → Img)
    (quant : ℕ → Img → Img) (pipeline : Img → Img) (rng : ℕ)
    (filter_type : String) (image_bytes : List ℕ) : ℕ :=
  if filter_type ≠ "pixel" ∧ filter_type ≠ "y2k" then 400
  else
    let result :=
      if filter_type = "pixel" then
        apply_pixel_art dec lin quant rng image_bytes 8 16
      else apply_y2k_film dec pipeline image_bytes
    match result with
    | .ok _ => 200
    | .error _ => 500

/-- A decoder outcome under which every buffer is undecodable. -/
def dec0 : List ℕ → Option Img := fun _ => none

/-- A decoder outcome producing the 7×7 image (decodable input whose
processing then fails internally). -/
def dec7 : List ℕ → Option Img := fun _ => some img7

/-- A stand-in film pipeline (identity) for boundary-layer theorems. -/
def pipeStub : Img → Img := fun i => i

/-- A stand-in `KMeans.fit` outcome for boundary-layer theorems. -/
def kmStub : ℕ → List Pix → ℕ → KMeansOut := fun _ _ _ => ⟨[], []⟩

/-- The 150×150 image used for the C3 counterexample: 135 rows of
channel value 1 and 15 rows of 0, so the mean of each channel over the
22500 sample pixels is exactly 135/150 = 9/10. -/
def imgC3 : Img := ⟨150, 150, fun _ y => if y < 135 then (1, 1, 1) else (0, 0, 0)⟩

/-- Decoder outcome for the C3 counterexample. -/
def decC3 : List ℕ → Option Img := fun _ => some imgC3

/-- Resizing a 150×150 image to 150×150 is the identity. -/
def linId : Img → ℕ → ℕ → Img := fun i _ _ => i

/-- The k-means outcome for `imgC3` with one cluster: a single cluster
containing every sample, centroid equal to the exact channel mean 9/10. -/
def kmC3 : ℕ → List Pix → ℕ → KMeansOut :=
  fun _ pts _ => ⟨[(9 / 10, 9 / 10, 9 / 10)], List.replicate pts.length 0⟩

/-- A 300×300 solid mid-gray image (the spec's degenerate scenario). -/
def imgSolid : Img := ⟨300, 300, fun _ _ => (128, 128, 128)⟩

/-- Decoder outcome for the C4 counterexample. -/
def decSolid : List ℕ → Option Img := fun _ => some imgSolid

/-- Resize outcome for the solid image: every sample is the same gray. -/
def linSolid : Img → ℕ → ℕ → Img :=
  fun _ w h => ⟨w, h, fun _ _ => (128, 128, 128)⟩

/-- The degenerate k-means outcome on 22500 identical samples: the five
requested centroids coincide and every sample lands in cluster 0 (ties in
the nearest-centroid assignment break to the lowest index), so only one
distinct label occurs. -/
def kmSolid : ℕ → List Pix → ℕ → KMeansOut :=
  fun _ pts _ =>
    ⟨List.replicate 5 (128, 128, 128), List.replicate pts.length 0⟩

/-- The five exact centroids for the C5 counterexample image. -/
def centersC5 : List (ℚ × ℚ × ℚ) :=
  [(0, 0, 0), (255, 0, 0), (0, 255, 0), (0, 0, 255), (255, 255, 255)]

/-- The label list of the optimal clustering of `imgC5`: row-major sample
index `i` is in cluster 0 for `i < 34`, 1 for `i < 68`, 2 for `i < 102`,
3 for `i < 136` and 4 otherwise — counts 34, 34, 34, 34, 22364. -/
def labelsC5 : List ℕ :=
  List.replicate 34 0 ++ (List.replicate 34 1 ++ (List.replicate 34 2 ++
    (List.replicate 34 3 ++ List.replicate 22364 4)))

/-- The 150×150 image for the C5 counterexample: five well-separated
solid colours occupying 34, 34, 34, 34 and 22364 sample positions in
row-major order (row-major index `i = y·150 + x`). -/
def imgC5 : Img :=
  ⟨150, 150, fun x y =>
    let i := y * 150 + x
    if i < 34 then (0, 0, 0)
    else if i < 68 then (255, 0, 0)
    else if i < 102 then (0, 255, 0)
    else if i < 136 then (0, 0, 255)
    else (255, 255, 255)⟩

/-- Decoder outcome for the C5 counterexample. -/
def decC5 : List ℕ → Option Img := fun _ => some imgC5

/-- The k-means outcome for `imgC5` with five clusters: the (unique,
zero-inertia) optimal clustering — each solid colour its own cluster,
centroids the exact colours, labels as in `labelsC5`. -/
def kmC5 : ℕ → List Pix → ℕ → KMeansOut := fun _ _ _ => ⟨centersC5, labelsC5⟩

/-! ## Vignette stage of `apply_y2k_film` (image_processing.py lines 163-172) -/

/-- The unnormalised Gaussian weight used by `cv2.getGaussianKernel(n, σ)`:
`exp(-(i - (n-1)/2)² / (2σ²))`. -/
noncomputable def gaussRaw (n : ℕ) (sigma : ℝ) (i : ℕ) : ℝ :=
  Real.exp (-(((i : ℝ) - ((n : ℝ) - 1) / 2) ^ 2) / (2 * sigma ^ 2))

/-- `cv2.getGaussianKernel(n, σ)`: the Gaussian weights normalised to sum
to one. -/
@[irreducible] noncomputable def getGaussianKernel (n : ℕ) (sigma : ℝ)
    (i : ℕ) : ℝ :=
  gaussRaw n sigma i / ∑ j in Finset.range n, gaussRaw n sigma j

/-- `kernel = kernel_y * kernel_x.T` (line 167), with the spreads
`rows·0.5` and `cols·0.5` the code passes (lines 165-166). -/
noncomputable def vigKernel (rows cols r c : ℕ) : ℝ :=
  getGaussianKernel rows ((rows : ℝ) * (1 / 2)) r *
    getGaussianKernel cols ((cols : ℝ) * (1 / 2)) c

/-- `kernel.max()` (line 168): the largest entry of the 2-D kernel. -/
noncomputable def vigMax (rows cols : ℕ) : ℝ :=
  if h : (Finset.range rows ×ˢ Finset.range cols).Nonempty then
    (Finset.range rows ×ˢ Finset.range cols).sup' h
      fun p => vigKernel rows cols p.1 p.2
  else 0

/-- `mask = kernel / kernel.max()` (line 168). -/
noncomputable def vigMask (rows cols r c : ℕ) : ℝ :=
  vigKernel rows cols r c / vigMax rows cols

/-- The per-pixel darkening factor `0.4 + 0.6 * mask` (line 171). -/
noncomputable def vigFactor (rows cols r c : ℕ) : ℝ :=
  0.4 + 0.6 * vigMask rows cols r c

/-- `np.clip(_, 0, 255)` on a single channel (line 172). -/
noncomputable def clip255 (x : ℝ) : ℝ := max 0 (min 255 x)

/-- An image with exact real channel values (the float32 scratch buffer
the vignette stage operates on). -/
structure FImg where
  w : ℕ
  h : ℕ
  px : ℕ → ℕ → ℝ × ℝ × ℝ

/-- The vignette stage (lines 163-172): every channel of the pixel at
column `x`, row `y` is multiplied by `0.4 + 0.6 · mask[y, x]` and clipped
to [0, 255] (the subsequent `astype(np.uint8)` quantisation is not
modelled: the stage's output is kept in exact arithmetic). -/
noncomputable def vigStage (img : FImg) : FImg :=
  ⟨img.w, img.h, fun x y =>
    ((clip255 ((img.px x y).1 * vigFactor img.h img.w y x)),
     (clip255 ((img.px x y).2.1 * vigFactor img.h img.w y x)),
     (clip255 ((img.px x y).2.2 * vigFactor img.h img.w y x)))⟩

/-- Mean of the three channels of one pixel: the brightness at a point. -/
noncomputable def brightness (img : FImg) (x y : ℕ) : ℝ :=
  ((img.px x y).1 + (img.px x y).2.1 + (img.px x y).2.2) / 3

/-- A 60×60 vignette-stage input that is black everywhere except a bright
8×8 patch in the top-left corner. -/
noncomputable def imgCornerBright : FImg :=
  ⟨60, 60, fun x y => if x < 8 ∧ y < 8 then (255, 255, 255) else (0, 0, 0)⟩

/-- A 60×60 uniform mid-gray vignette-stage input. -/
noncomputable def imgGray : FImg := ⟨60, 60, fun _ _ => (128, 128, 128)⟩

/-! ## Codec adapter (image_processing.py lines 216-223) -/

/-- The base64 alphabet, index 0-63. -/
def b64Alphabet : List Char :=
  "ABCDEFGHIJKLMNOPQRSTUVWXYZabcdefghijklmnopqrstuvwxyz0123456789+/".toList

/-- The character encoding a 6-bit group. -/
def b64Char (n : ℕ) : Char := b64Alphabet.getD n '='

/-- The 6-bit value of an alphabet character. -/
def b64Val (c : Char) : ℕ := b64Alphabet.indexOf c

/-- `image_to_base64` (lines 216-218): `base64.b64encode(bytes)` decoded
to text — three bytes become four alphabet characters, a final one- or
two-byte group is padded with `=`. -/
def image_to_base64 : List ℕ → List Char
  | a :: b :: c :: rest =>
    b64Char (a / 4) :: b64Char (a % 4 * 16 + b / 16) ::
      b64Char (b % 16 * 4 + c / 64) :: b64Char (c % 64) ::
        image_to_base64 rest
  | [a, b] => [b64Char (a / 4), b64Char (a % 4 * 16 + b / 16),
      b64Char (b % 16 * 4), '=']
  | [a] => [b64Char (a / 4), b64Char (a % 4 * 16), '=', '=']
  | [] => []

/-- `base64_to_image` (lines 221-223): `base64.b64decode(text)` — four
characters back to three bytes, with the `=`-padded final group yielding
one or two bytes. -/
def base64_to_image : List Char → List ℕ
  | c₁ :: c₂ :: c₃ :: c₄ :: rest =>
    if c₃ = '=' then [b64Val c₁ * 4 + b64Val c₂ / 16]
    else if c₄ = '=' then
      [b64Val c₁ * 4 + b64Val c₂ / 16, b64Val c₂ % 16 * 16 + b64Val c₃ / 4]
    else
      (b64Val c₁ * 4 + b64Val c₂ / 16) ::
        (b64Val c₂ % 16 * 16 + b64Val c₃ / 4) ::
          (b64Val c₃ % 4 * 64 + b64Val c₄) :: base64_to_image rest
  | _ => []

/-! ## Theorems for claims C1, C6, C7 (pixel-art geometry) -/

/-- C1, counterexample to the claim as stated: for a 7×7 input and the
default `cell_size` 8 the floor-divided reduced width is `0`; no clamping
is performed and `apply_pixel_art` fails at the downscale (`cv2.resize`
rejects an empty destination size) instead of returning a processed
image. -/
theorem C1_counterexample :
    (7 : ℕ) / 8 = 0 ∧
    applyPixelArtImg linStub quantStub 0 img7 8 16 =
      .error (.cvError resizeEmptyMsg) := by
  constructor
  · rfl
  · simp [applyPixelArtImg, img7]

/-- C1 (amended): `apply_pixel_art` computes the reduced dimensions as
`width // cell_size` and `height // cell_size` with no clamping; whenever
the input width or height is smaller than `cell_size` the corresponding
reduced dimension is `0` and the function raises at the downscale step
rather than returning a processed image. -/
theorem C1_theorem (lin : Img → ℕ → ℕ → Img) (quant : ℕ → Img → Img)
    (rng : ℕ) (image : Img) (pixel_size color_count : ℕ)
    (h : image.w < pixel_size ∨ image.h < pixel_size) :
    applyPixelArtImg lin quant rng image pixel_size color_count =
      .error (.cvError resizeEmptyMsg) := by
  have h0 : image.w / pixel_size = 0 ∨ image.h / pixel_size = 0 := by
    rcases h with h | h
    · exact Or.inl (Nat.div_eq_of_lt h)
    · exact Or.inr (Nat.div_eq_of_lt h)
  simp only [applyPixelArtImg]
  rw [if_pos h0]

/-- C1 witness: the amended theorem applied at a concrete 7×7 image. -/
theorem C1_witness :
    (img7.w < 8 ∨ img7.h < 8) ∧
    applyPixelArtImg linStub quantStub 0 img7 8 16 =
      .error (.cvError resizeEmptyMsg) :=
  ⟨Or.inl (by decide),
   C1_theorem linStub quantStub 0 img7 8 16 (Or.inl (by decide))⟩

/-- C7, counterexample to the claim as stated: an 8×8 input has width and
height at least `cell_size = 8`, but the reduced image is a single pixel
and `cv2.kmeans` asserts on 1 sample with 16 requested clusters, so
`apply_pixel_art` raises instead of returning an image of the input's
size. -/
theorem C7_counterexample :
    8 ≤ img8.w ∧ 8 ≤ img8.h ∧
    applyPixelArtImg linStub quantStub 0 img8 8 16 =
      .error (.cvError kmeansAssertMsg) := by
  refine ⟨by decide, by decide, ?_⟩
  simp [applyPixelArtImg, img8, linStub]

/-- C7 (amended): whenever the reduced pixel count
`(width // cell_size) · (height // cell_size)` is at least `palette_size`
(so the `cv2.kmeans` sample-count assertion passes — in particular the
reduced dimensions are nonzero), `apply_pixel_art` returns an image with
exactly the input's width and height. -/
theorem C7_theorem (lin : Img → ℕ → ℕ → Img) (quant : ℕ → Img → Img)
    (rng : ℕ) (image : Img) (pixel_size color_count : ℕ)
    (hlin : ∀ i w h, (lin i w h).w = w ∧ (lin i w h).h = h)
    (hcc : 0 < color_count)
    (hN : color_count ≤ (image.w / pixel_size) * (image.h / pixel_size)) :
    (applyPixelArtImg lin quant rng image pixel_size color_count).map
        (fun o => (o.w, o.h)) =
      .ok (image.w, image.h) := by
  have hg1 : ¬(image.w / pixel_size = 0 ∨ image.h / pixel_size = 0) := by
    rintro (h | h) <;> rw [h] at hN <;> simp at hN <;> omega
  have hl := hlin image (image.w / pixel_size) (image.h / pixel_size)
  have hg2 : ¬((lin image (image.w / pixel_size) (image.h / pixel_size)).w *
      (lin image (image.w / pixel_size) (image.h / pixel_size)).h <
        color_count) := by
    rw [hl.1, hl.2]; omega
  simp only [applyPixelArtImg]
  rw [if_neg hg1, if_neg hg2]
  rfl

/-- C7 witness: the amended theorem applied at a concrete 64×64 image. -/
theorem C7_witness :
    (0 < 16 ∧ 16 ≤ (img64.w / 8) * (img64.h / 8)) ∧
    (applyPixelArtImg linStub quantStub 0 img64 8 16).map
        (fun o => (o.w, o.h)) =
      .ok (img64.w, img64.h) :=
  ⟨⟨by decide, by decide⟩,
   C7_theorem linStub quantStub 0 img64 8 16 (fun _ _ _ => ⟨rfl, rfl⟩)
     (by decide) (by decide)⟩

/-- C6, counterexample to the claim as stated: for an 84×16 input
(width not divisible by 8) the reduced image is 10×2 and the
nearest-neighbour upscale maps output columns 8 and 9 — which lie in the
same origin-aligned 8×8 block — to different source columns (0 and 1), so
the two output pixels differ whenever the quantised colours of those
source columns differ (here they do: the exhibited quantisation outcome
keeps the at-most-16 distinct colours of the shrunken image intact). -/
theorem C6_counterexample :
    applyPixelArtImg linC6 quantStub 0 imgC6 8 16 =
      .ok (nnResize (quantStub 0 (linC6 imgC6 10 2)) 84 16) ∧
    8 / 8 = 9 / 8 ∧ (0 : ℕ) / 8 = 0 / 8 ∧
    (nnResize (quantStub 0 (linC6 imgC6 10 2)) 84 16).px 8 0 ≠
      (nnResize (quantStub 0 (linC6 imgC6 10 2)) 84 16).px 9 0 := by
  refine ⟨?_, rfl, rfl, ?_⟩
  · simp [applyPixelArtImg, imgC6, linC6]
  · decide

/-- C6 (amended): when `cell_size` divides both input dimensions (and the
pipeline succeeds), any two output pixels of `apply_pixel_art` that lie in
the same origin-aligned `cell_size × cell_size` block are identical in
colour, for every linear-downscale and quantisation outcome that preserves
the requested shape. -/
theorem C6_theorem (lin : Img → ℕ → ℕ → Img) (quant : ℕ → Img → Img)
    (rng : ℕ) (image out : Img) (pixel_size color_count : ℕ)
    (hlin : ∀ i w h, (lin i w h).w = w ∧ (lin i w h).h = h)
    (hq : ∀ r i, (quant r i).w = i.w ∧ (quant r i).h = i.h)
    (hw : pixel_size ∣ image.w) (hh : pixel_size ∣ image.h)
    (hok : applyPixelArtImg lin quant rng image pixel_size color_count =
      .ok out)
    (x₁ y₁ x₂ y₂ : ℕ)
    (hx₁ : x₁ < image.w) (hx₂ : x₂ < image.w)
    (hy₁ : y₁ < image.h) (hy₂ : y₂ < image.h)
    (hbx : x₁ / pixel_size = x₂ / pixel_size)
    (hby : y₁ / pixel_size = y₂ / pixel_size) :
    out.px x₁ y₁ = out.px x₂ y₂ := by
  simp only [applyPixelArtImg] at hok
  by_cases hg1 : image.w / pixel_size = 0 ∨ image.h / pixel_size = 0
  · rw [if_pos hg1] at hok; exact absurd hok (by simp)
  rw [if_neg hg1] at hok
  by_cases hg2 : (lin image (image.w / pixel_size) (image.h / pixel_size)).w *
      (lin image (image.w / pixel_size) (image.h / pixel_size)).h < color_count
  · rw [if_pos hg2] at hok; exact absurd hok (by simp)
  rw [if_neg hg2] at hok
  have hout : out = nnResize
      (quant rng (lin image (image.w / pixel_size) (image.h / pixel_size)))
      image.w image.h := by
    cases hok; rfl
  subst hout
  -- dimensions of the quantised shrunken image
  have hlw := (hlin image (image.w / pixel_size) (image.h / pixel_size)).1
  have hlh := (hlin image (image.w / pixel_size) (image.h / pixel_size)).2
  have hqw := (hq rng (lin image (image.w / pixel_size)
    (image.h / pixel_size))).1
  have hqh := (hq rng (lin image (image.w / pixel_size)
    (image.h / pixel_size))).2
  set q := quant rng (lin image (image.w / pixel_size)
    (image.h / pixel_size)) with hqdef
  have hqw' : q.w = image.w / pixel_size := by rw [hqw, hlw]
  have hqh' : q.h = image.h / pixel_size := by rw [hqh, hlh]
  have hsw : 0 < image.w / pixel_size := by
    rcases Nat.eq_zero_or_pos (image.w / pixel_size) with h | h
    · exact absurd (Or.inl h) hg1
    · exact h
  have hsh : 0 < image.h / pixel_size := by
    rcases Nat.eq_zero_or_pos (image.h / pixel_size) with h | h
    · exact absurd (Or.inr h) hg1
    · exact h
  have hps : 0 < pixel_size := by
    rcases Nat.eq_zero_or_pos pixel_size with h | h
    · subst h; simp at hsw
    · exact h
  have hW : image.w = (image.w / pixel_size) * pixel_size :=
    (Nat.div_mul_cancel hw).symm
  have hH : image.h = (image.h / pixel_size) * pixel_size :=
    (Nat.div_mul_cancel hh).symm
  -- freeze the reduced dimensions so rewriting the full dimensions below
  -- does not loop
  obtain ⟨sw, hsweq⟩ : ∃ s, s = image.w / pixel_size := ⟨_, rfl⟩
  obtain ⟨sh, hsheq⟩ : ∃ s, s = image.h / pixel_size := ⟨_, rfl⟩
  rw [← hsweq] at hqw' hsw hW
  rw [← hsheq] at hqh' hsh hH
  -- the nearest-neighbour source index of an output pixel in column x is
  -- x / pixel_size
  have key : ∀ x, x < image.w →
      min (x * q.w / image.w) (q.w - 1) = x / pixel_size := by
    intro x hx
    have h1 : x * q.w / image.w = x / pixel_size := by
      rw [hqw', hW, mul_comm x sw]
      exact Nat.mul_div_mul_left x pixel_size hsw
    rw [hqw'] at h1 ⊢
    rw [h1]
    have h2 : x / pixel_size < sw := by
      rw [hW, mul_comm] at hx
      exact Nat.div_lt_of_lt_mul hx
    omega
  have keyh : ∀ y, y < image.h →
      min (y * q.h / image.h) (q.h - 1) = y / pixel_size := by
    intro y hy
    have h1 : y * q.h / image.h = y / pixel_size := by
      rw [hqh', hH, mul_comm y sh]
      exact Nat.mul_div_mul_left y pixel_size hsh
    rw [hqh'] at h1 ⊢
    rw [h1]
    have h2 : y / pixel_size < sh := by
      rw [hH, mul_comm] at hy
      exact Nat.div_lt_of_lt_mul hy
    omega
  show q.px _ _ = q.px _ _
  rw [key x₁ hx₁, key x₂ hx₂, keyh y₁ hy₁, keyh y₂ hy₂, hbx, hby]

/-- C6 witness: the amended theorem applied at a concrete 64×64 image with
concrete library outcomes, at the pixels (1,2) and (5,6) of block (0,0). -/
theorem C6_witness :
    (8 ∣ img64.w) ∧ (8 ∣ img64.h) ∧
    (nnResize (quantStub 0 (linStub img64 8 8)) 64 64).px 1 2 =
      (nnResize (quantStub 0 (linStub img64 8 8)) 64 64).px 5 6 :=
  ⟨by decide, by decide,
   C6_theorem linStub quantStub 0 img64
     (nnResize (quantStub 0 (linStub img64 8 8)) 64 64) 8 16
     (fun _ _ _ => ⟨rfl, rfl⟩) (fun _ _ => ⟨rfl, rfl⟩)
     (by decide) (by decide) rfl
     1 2 5 6 (by decide) (by decide) (by decide) (by decide)
     (by decide) (by decide)⟩

/-! ## Helper lemmas about the palette formatting -/

/-- Membership in the insertion step of the descending sort. -/
theorem mem_insertDesc {x s : Swatch} {l : List Swatch} :
    x ∈ insertDesc s l ↔ x = s ∨ x ∈ l := by
  induction l with
  | nil => simp [insertDesc]
  | cons t ts ih =>
    by_cases h : t.percentage < s.percentage
    · simp [insertDesc, h]
    · simp [insertDesc, h, ih]
      tauto

/-- The descending sort permutes: membership is preserved. -/
theorem mem_sortDesc {x : Swatch} {l : List Swatch} :
    x ∈ sortDesc l ↔ x ∈ l := by
  induction l with
  | nil => simp [sortDesc]
  | cons s ss ih => simp [sortDesc, mem_insertDesc, ih]

/-- The insertion step adds exactly one element. -/
theorem insertDesc_length (s : Swatch) (l : List Swatch) :
    (insertDesc s l).length = l.length + 1 := by
  induction l with
  | nil => rfl
  | cons t ts ih =>
    by_cases h : t.percentage < s.percentage <;> simp [insertDesc, h, ih]

/-- The descending sort preserves length. -/
theorem sortDesc_length (l : List Swatch) : (sortDesc l).length = l.length := by
  induction l with
  | nil => rfl
  | cons s ss ih => simp [sortDesc, insertDesc_length, ih]

/-- The insertion step preserves the sum of any projection. -/
theorem insertDesc_map_sum (f : Swatch → ℚ) (s : Swatch) (l : List Swatch) :
    ((insertDesc s l).map f).sum = f s + (l.map f).sum := by
  induction l with
  | nil => simp [insertDesc]
  | cons t ts ih =>
    by_cases h : t.percentage < s.percentage
    · simp [insertDesc, h]
    · simp [insertDesc, h, ih]
      ring

/-- The descending sort preserves the sum of any projection. -/
theorem sortDesc_map_sum (f : Swatch → ℚ) (l : List Swatch) :
    ((sortDesc l).map f).sum = (l.map f).sum := by
  induction l with
  | nil => rfl
  | cons s ss ih => simp [sortDesc, insertDesc_map_sum, ih]

/-- Folding `addLabel` for `n` copies of a label onto an association list
whose labels are all larger prepends the pair `(v, n)`. -/
theorem foldr_addLabel_replicate (v : ℕ) (s : List (ℕ × ℕ))
    (hs : ∀ p ∈ s, v < p.1) :
    ∀ n, 0 < n → List.foldr addLabel s (List.replicate n v) = (v, n) :: s := by
  intro n
  induction n with
  | zero => omega
  | succ k ih =>
    intro _
    rcases Nat.eq_zero_or_pos k with hk | hk
    · subst hk
      show addLabel v s = (v, 1) :: s
      cases s with
      | nil => rfl
      | cons p rest =>
        obtain ⟨w, m⟩ := p
        have hvw : v < w := hs (w, m) (by simp)
        simp [addLabel, hvw]
    · have : List.replicate (k + 1) v = v :: List.replicate k v := rfl
      rw [this, List.foldr_cons, ih hk]
      simp [addLabel]

/-- `np.unique` of a constant label list is a single pair. -/
theorem uniqueCounts_replicate (n v : ℕ) (hn : 0 < n) :
    uniqueCounts (List.replicate n v) = [(v, n)] :=
  foldr_addLabel_replicate v [] (by simp) n hn

/-- Flattening an image yields one sample per pixel. -/
theorem pixelList_length (image : Img) :
    (pixelList image).length = image.w * image.h := by
  simp [pixelList]

/-- Python's `round(x, 1)` moves the value by at most one twentieth. -/
theorem pyRound1_abs_le (q : ℚ) : |pyRound1 q - q| ≤ 1 / 20 := by
  simp only [pyRound1]
  have key : ∀ n : ℤ, |(n : ℚ) - 10 * q| ≤ 1 / 2 → |(n : ℚ) / 10 - q| ≤ 1 / 20 := by
    intro n hn
    have h : (n : ℚ) / 10 - q = ((n : ℚ) - 10 * q) / 10 := by ring
    rw [h, abs_div, show |(10 : ℚ)| = 10 by norm_num]
    linarith
  split_ifs with h1 h2
  · apply key
    rw [abs_sub_comm, h1, abs_of_nonneg] <;> norm_num
  · apply key
    push_cast
    rw [abs_of_nonneg (by linarith)]
    linarith
  · apply key
    rw [abs_sub_comm]
    exact abs_sub_round (10 * q)

/-! ## Theorems for claims C2, C3, C4, C5, C9 (palette and boundary) -/

/-- C2, counterexample to the claim as stated: an undecodable buffer makes
`apply_pixel_art` raise Python's built-in generic `ValueError` — there is
no dedicated `DecodeError` class anywhere in the code — and the `/boost`
handler's blanket `except Exception` maps it to HTTP 500, exactly the
status it also gives an internal processing failure (here: the `cv2.error`
on a decodable 7×7 image), so the boundary layer cannot tell a caller
error from an internal failure. -/
theorem C2_counterexample :
    apply_pixel_art dec0 linStub quantStub 0 [] 8 16 =
      .error (.valueError decodeFailMsg) ∧
    boostStatus dec0 linStub quantStub pipeStub 0 "pixel" [] = 500 ∧
    apply_pixel_art dec7 linStub quantStub 0 [] 8 16 =
      .error (.cvError resizeEmptyMsg) ∧
    boostStatus dec7 linStub quantStub pipeStub 0 "pixel" [] = 500 := by
  refine ⟨rfl, ?_, ?_, ?_⟩
  · simp [boostStatus, apply_pixel_art, dec0]
  · simp [apply_pixel_art, dec7, applyPixelArtImg, img7]
  · simp [boostStatus, apply_pixel_art, dec7, applyPixelArtImg, img7]

/-- C2 (amended): on an undecodable byte buffer each of the three
transforms does fail fast — before any processing — but with the generic
built-in `ValueError` (fixed message), not a dedicated `DecodeError` kind,
and the `/boost` boundary layer maps this, like every other transform
failure, to HTTP 500. -/
theorem C2_theorem (dec : List ℕ → Option Img) (lin lin150 : Img → ℕ → ℕ → Img)
    (quant : ℕ → Img → Img) (km : ℕ → List Pix → ℕ → KMeansOut)
    (pipeline : Img → Img) (rng : ℕ) (image_bytes : List ℕ) (n_colors : ℕ)
    (hdec : dec image_bytes = none) :
    extract_color_palette dec lin150 km rng image_bytes n_colors =
      .error (.valueError decodeFailMsg) ∧
    apply_pixel_art dec lin quant rng image_bytes 8 16 =
      .error (.valueError decodeFailMsg) ∧
    apply_y2k_film dec pipeline image_bytes =
      .error (.valueError decodeFailMsg) ∧
    boostStatus dec lin quant pipeline rng "pixel" image_bytes = 500 ∧
    boostStatus dec lin quant pipeline rng "y2k" image_bytes = 500 := by
  refine ⟨?_, ?_, ?_, ?_, ?_⟩ <;>
    simp [extract_color_palette, apply_pixel_art, apply_y2k_film,
      boostStatus, hdec]

/-- C2 witness: the amended theorem applied to a concrete decoder outcome
under which the empty buffer is undecodable. -/
theorem C2_witness :
    dec0 [] = none ∧
    (extract_color_palette dec0 linStub kmStub 0 [] 5 =
        .error (.valueError decodeFailMsg) ∧
      apply_pixel_art dec0 linStub quantStub 0 [] 8 16 =
        .error (.valueError decodeFailMsg) ∧
      apply_y2k_film dec0 pipeStub [] =
        .error (.valueError decodeFailMsg) ∧
      boostStatus dec0 linStub quantStub pipeStub 0 "pixel" [] = 500 ∧
      boostStatus dec0 linStub quantStub pipeStub 0 "y2k" [] = 500) :=
  ⟨rfl, C2_theorem dec0 linStub linStub quantStub kmStub pipeStub 0 [] 5 rfl⟩

/-- C9: `extract_color_palette` is deterministic — the model threads the
ambient random state, but the source fixes `random_state=42` in the
`KMeans` constructor, so the result does not depend on the ambient state:
two invocations with the same image and the same (library) clustering
function agree, whatever the ambient random states are. -/
theorem C9_theorem (dec : List ℕ → Option Img) (lin : Img → ℕ → ℕ → Img)
    (km : ℕ → List Pix → ℕ → KMeansOut) (rng₁ rng₂ : ℕ)
    (image_bytes : List ℕ) (n_colors : ℕ) :
    extract_color_palette dec lin km rng₁ image_bytes n_colors =
      extract_color_palette dec lin km rng₂ image_bytes n_colors := rfl

/-- C3, counterexample to the claim as stated: for the image `imgC3`
(channel mean exactly 9/10) with one cluster, the cluster centroid is
(9/10, 9/10, 9/10); the code formats its RGB triple with `int(...)`,
giving (0, 0, 0), while the claim's round-to-nearest would give 1 per
channel. -/
theorem C3_counterexample :
    extract_color_palette decC3 linId kmC3 0 [] 1 =
      .ok [mkSwatch (9 / 10, 9 / 10, 9 / 10) 22500 22500] ∧
    (mkSwatch (9 / 10, 9 / 10, 9 / 10) 22500 22500).rgb = (0, 0, 0) ∧
    specRoundNearest (9 / 10) = 1 := by
  refine ⟨?_, by norm_num [mkSwatch, pyInt],
    by norm_num [specRoundNearest, round_eq]⟩
  have hplen : (pixelList imgC3).length = 22500 := by
    rw [pixelList_length]; rfl
  simp only [extract_color_palette, decC3, linId, kmC3]
  rw [hplen, uniqueCounts_replicate 22500 0 (by norm_num),
    List.length_replicate]
  rfl

/-- C3 (amended): every swatch returned by the palette-formatting step of
`extract_color_palette` carries the RGB triple of some cluster centroid
truncated toward zero per channel (Python's `int(...)`, not
round-to-nearest), and that cluster's sample fraction as a percentage
rounded to one decimal place. -/
theorem C3_theorem (centers : List (ℚ × ℚ × ℚ)) (counts : List ℕ)
    (total : ℕ) (s : Swatch) (hs : s ∈ formatColors centers counts total) :
    ∃ p ∈ centers.zip counts,
      s.rgb = (pyInt p.1.1, pyInt p.1.2.1, pyInt p.1.2.2) ∧
      s.percentage = pyRound1 ((p.2 : ℚ) / (total : ℚ) * 100) := by
  rw [formatColors, mem_sortDesc, List.mem_map] at hs
  obtain ⟨p, hp, hps⟩ := hs
  exact ⟨p, hp, by rw [← hps]; exact ⟨rfl, rfl⟩⟩

/-- C3 witness: the amended theorem applied to the palette of a single
cluster of centroid (9/10, 9/10, 9/10) covering all 22500 samples. -/
theorem C3_witness :
    mkSwatch (9 / 10, 9 / 10, 9 / 10) 22500 22500 ∈
      formatColors [(9 / 10, 9 / 10, 9 / 10)] [22500] 22500 ∧
    ∃ p ∈ ([((9 : ℚ) / 10, (9 : ℚ) / 10, (9 : ℚ) / 10)].zip
        ([22500] : List ℕ)),
      (mkSwatch (9 / 10, 9 / 10, 9 / 10) 22500 22500).rgb =
        (pyInt p.1.1, pyInt p.1.2.1, pyInt p.1.2.2) ∧
      (mkSwatch (9 / 10, 9 / 10, 9 / 10) 22500 22500).percentage =
        pyRound1 ((p.2 : ℚ) / ((22500 : ℕ) : ℚ) * 100) :=
  ⟨by simp [formatColors, sortDesc, insertDesc],
   C3_theorem [(9 / 10, 9 / 10, 9 / 10)] [22500] 22500
     (mkSwatch (9 / 10, 9 / 10, 9 / 10) 22500 22500)
     (by simp [formatColors, sortDesc, insertDesc])⟩

/-- C4, counterexample to the claim as stated: on a solid mid-gray image
with the default five requested clusters, every sample receives the same
label, `np.unique` reports a single distinct label, and `zip` truncates
the five centroids against the single percentage — the returned palette
has length 1, not 5. -/
theorem C4_counterexample :
    extract_color_palette decSolid linSolid kmSolid 0 [] 5 =
      .ok [mkSwatch (128, 128, 128) 22500 22500] ∧
    [mkSwatch (128, 128, 128) 22500 22500].length = 1 ∧ (1 : ℕ) ≠ 5 := by
  refine ⟨?_, rfl, by decide⟩
  have hplen : (pixelList (linSolid imgSolid 150 150)).length = 22500 := by
    rw [pixelList_length]; rfl
  simp only [extract_color_palette, decSolid, kmSolid]
  rw [hplen, uniqueCounts_replicate 22500 0 (by norm_num),
    List.length_replicate]
  rfl

/-- C4 (amended): the length of the palette built by the formatting step
of `extract_color_palette` is the minimum of the number of centroids
(the requested `k`) and the number of distinct labels; it equals `k` only
when no cluster is empty, and collapses below `k` for degenerate images. -/
theorem C4_theorem (centers : List (ℚ × ℚ × ℚ)) (counts : List ℕ)
    (total : ℕ) :
    (formatColors centers counts total).length =
      min centers.length counts.length := by
  simp [formatColors, sortDesc_length]

/-- C5, counterexample to the claim as stated: for the five-colour image
`imgC5` (cluster sizes 34, 34, 34, 34, 22364 out of 22500), each of the
four small clusters has exact share 0.1511...% which rounds up to 0.2,
and the large one rounds to 99.4, so the returned percentages sum to
100.2 — outside the claimed 100.0 ± 0.1. -/
theorem C5_counterexample :
    extract_color_palette decC5 linId kmC5 0 [] 5 =
      .ok (formatColors centersC5 [34, 34, 34, 34, 22364] 22500) ∧
    (((formatColors centersC5 [34, 34, 34, 34, 22364] 22500).map
        (fun s => s.percentage)).sum) = 1002 / 10 ∧
    ¬ |(1002 / 10 : ℚ) - 100| ≤ 1 / 10 := by
  have hp1 : pyRound1 ((34 : ℚ) / 225) = 1 / 5 := by
    norm_num [pyRound1, round_eq]
  have hp2 : pyRound1 ((22364 : ℚ) / 225) = 497 / 5 := by
    norm_num [pyRound1, round_eq]
  refine ⟨?_, ?_, ?_⟩
  case refine_2 =>
    norm_num [formatColors, centersC5, mkSwatch, sortDesc, insertDesc,
      hp1, hp2]
  case refine_3 =>
    rw [show (1002 / 10 : ℚ) - 100 = 1 / 5 by norm_num,
      abs_of_nonneg (by norm_num)]
    norm_num
  have h4 : List.foldr addLabel [] (List.replicate 22364 4) = [(4, 22364)] :=
    foldr_addLabel_replicate 4 [] (by simp) 22364 (by norm_num)
  have h3 : List.foldr addLabel [(4, 22364)] (List.replicate 34 3) =
      [(3, 34), (4, 22364)] :=
    foldr_addLabel_replicate 3 [(4, 22364)] (by simp) 34 (by norm_num)
  have h2 : List.foldr addLabel [(3, 34), (4, 22364)] (List.replicate 34 2) =
      [(2, 34), (3, 34), (4, 22364)] :=
    foldr_addLabel_replicate 2 [(3, 34), (4, 22364)] (by decide) 34
      (by norm_num)
  have h1 : List.foldr addLabel [(2, 34), (3, 34), (4, 22364)]
      (List.replicate 34 1) = [(1, 34), (2, 34), (3, 34), (4, 22364)] :=
    foldr_addLabel_replicate 1 [(2, 34), (3, 34), (4, 22364)] (by decide) 34
      (by norm_num)
  have h0 : List.foldr addLabel [(1, 34), (2, 34), (3, 34), (4, 22364)]
      (List.replicate 34 0) =
      [(0, 34), (1, 34), (2, 34), (3, 34), (4, 22364)] :=
    foldr_addLabel_replicate 0 [(1, 34), (2, 34), (3, 34), (4, 22364)]
      (by decide) 34 (by norm_num)
  have huc : uniqueCounts labelsC5 =
      [(0, 34), (1, 34), (2, 34), (3, 34), (4, 22364)] := by
    rw [uniqueCounts, labelsC5]
    rw [List.foldr_append, List.foldr_append, List.foldr_append,
      List.foldr_append, h4, h3, h2, h1, h0]
  have hlen : labelsC5.length = 22500 := by
    rw [labelsC5]
    simp only [List.length_append, List.length_replicate]
  simp only [extract_color_palette, decC5, kmC5]
  rw [huc, hlen]
  rfl

/-- C5 (amended): whenever every requested cluster is non-empty (so `zip`
drops nothing) the exact percentages sum to exactly 100, and the
percentages rounded to one decimal place sum to 100 within k·0.05 — a
bound of 0.25 for the default k = 5, which can exceed the claimed 0.1
tolerance. -/
theorem C5_theorem (centers : List (ℚ × ℚ × ℚ)) (counts : List ℕ)
    (total : ℕ) (h0 : 0 < total) (hsum : counts.sum = total)
    (hlen : counts.length ≤ centers.length) :
    |(((formatColors centers counts total).map
        (fun s => s.percentage)).sum) - 100| ≤ (counts.length : ℚ) / 20 := by
  rw [formatColors, sortDesc_map_sum, List.map_map]
  -- reduce the zipped sum to a sum over the counts
  have hzip : ∀ (cs : List (ℚ × ℚ × ℚ)) (ns : List ℕ),
      ns.length ≤ cs.length →
      ((cs.zip ns).map ((fun s => s.percentage) ∘
          fun p => mkSwatch p.1 p.2 total)) =
        ns.map (fun n : ℕ => pyRound1 ((n : ℚ) / (total : ℚ) * 100)) := by
    intro cs
    induction cs with
    | nil =>
      intro ns hns
      cases ns with
      | nil => rfl
      | cons n ns' => simp at hns
    | cons c cs' ih =>
      intro ns hns
      cases ns with
      | nil => rfl
      | cons n ns' =>
        simp only [List.zip_cons_cons, List.map_cons, List.length_cons] at *
        exact congrArg (_ :: ·) (ih ns' (by omega))
  rw [hzip centers counts hlen]
  -- the exact percentages sum to 100
  have hexact : ∀ ns : List ℕ,
      ((ns.map (fun n : ℕ => (n : ℚ) / (total : ℚ) * 100)).sum) =
        ((ns.sum : ℚ)) / (total : ℚ) * 100 := by
    intro ns
    induction ns with
    | nil => simp
    | cons n ns' ih =>
      simp only [List.map_cons, List.sum_cons, ih, List.sum_cons]
      push_cast
      ring
  -- splitting a sum difference termwise under the absolute value
  have habs : ∀ a b c d : ℚ, |a + b - (c + d)| ≤ |a - c| + |b - d| := by
    intro a b c d
    rw [show a + b - (c + d) = (a - c) + (b - d) by ring]
    exact abs_add _ _
  -- the rounded sum is close to the exact sum
  have hclose : ∀ ns : List ℕ,
      |((ns.map (fun n : ℕ => pyRound1 ((n : ℚ) / (total : ℚ) * 100))).sum) -
          ((ns.map (fun n : ℕ => (n : ℚ) / (total : ℚ) * 100)).sum)| ≤
        (ns.length : ℚ) / 20 := by
    intro ns
    induction ns with
    | nil => simp
    | cons n ns' ih =>
      simp only [List.map_cons, List.sum_cons, List.length_cons]
      have hterm := pyRound1_abs_le ((n : ℚ) / (total : ℚ) * 100)
      apply le_trans (habs _ _ _ _)
      have hc : (((ns'.length + 1 : ℕ)) : ℚ) / 20 =
          1 / 20 + (ns'.length : ℚ) / 20 := by
        push_cast
        ring
      rw [hc]
      exact add_le_add hterm ih
  have h100 : ((counts.map
      (fun n : ℕ => (n : ℚ) / (total : ℚ) * 100)).sum) = 100 := by
    rw [hexact, hsum]
    have ht : (total : ℚ) ≠ 0 := by
      exact_mod_cast Nat.pos_iff_ne_zero.mp h0
    field_simp
  calc |((counts.map
        (fun n : ℕ => pyRound1 ((n : ℚ) / (total : ℚ) * 100))).sum) - 100|
      = |((counts.map
            (fun n : ℕ => pyRound1 ((n : ℚ) / (total : ℚ) * 100))).sum) -
          ((counts.map (fun n : ℕ => (n : ℚ) / (total : ℚ) * 100)).sum)| := by
        rw [h100]
    _ ≤ (counts.length : ℚ) / 20 := hclose counts

/-- C5 witness: the amended theorem applied to a single full cluster. -/
theorem C5_witness :
    ((0 : ℕ) < 22500 ∧ [22500].sum = 22500 ∧
      [22500].length ≤ [((1 : ℚ), (1 : ℚ), (1 : ℚ))].length) ∧
    |(((formatColors [((1 : ℚ), (1 : ℚ), (1 : ℚ))] [22500] 22500).map
        (fun s => s.percentage)).sum) - 100| ≤ (([22500] : List ℕ).length : ℚ) / 20 :=
  ⟨⟨by decide, by decide, by decide⟩,
   C5_theorem [((1 : ℚ), (1 : ℚ), (1 : ℚ))] [22500] 22500 (by decide)
     (by decide) (by decide)⟩

/-! ## Theorems for claim C8 (vignette) -/

/-- Every Gaussian weight is positive. -/
theorem gaussRaw_pos (n : ℕ) (sigma : ℝ) (i : ℕ) : 0 < gaussRaw n sigma i :=
  Real.exp_pos _

/-- The sum of the Gaussian weights over a nonempty kernel is positive. -/
theorem gaussSum_pos (n : ℕ) (sigma : ℝ) (hn : 0 < n) :
    0 < ∑ j in Finset.range n, gaussRaw n sigma j :=
  Finset.sum_pos (fun j _ => gaussRaw_pos n sigma j)
    (Finset.nonempty_range_iff.mpr (by omega))

/-- For a kernel of length at least 3 and the spread `n · 0.5` the code
uses, the end weight is strictly smaller than the middle weight. -/
theorem gaussRaw_corner_lt (n : ℕ) (hn : 3 ≤ n) :
    gaussRaw n ((n : ℝ) * (1 / 2)) 0 < gaussRaw n ((n : ℝ) * (1 / 2)) (n / 2) := by
  have hn3 : (3 : ℝ) ≤ (n : ℝ) := by exact_mod_cast hn
  have hD : (0 : ℝ) < 2 * ((n : ℝ) * (1 / 2)) ^ 2 := by nlinarith
  unfold gaussRaw
  rw [Real.exp_lt_exp, neg_div, neg_div, neg_lt_neg_iff]
  apply div_lt_div_of_pos_right ?_ hD
  have hB : ((↑(n / 2) : ℝ) - ((n : ℝ) - 1) / 2) ^ 2 ≤ 1 / 4 := by
    rcases Nat.even_or_odd n with ⟨k, hk⟩ | ⟨k, hk⟩
    · have h2 : n / 2 = k := by omega
      subst hk
      rw [h2]
      push_cast
      rw [show ((k : ℝ) - ((k : ℝ) + (k : ℝ) - 1) / 2) ^ 2 = (1 / 2) ^ 2 by
        ring]
      norm_num
    · have h2 : n / 2 = k := by omega
      subst hk
      rw [h2]
      push_cast
      rw [show ((k : ℝ) - (2 * (k : ℝ) + 1 - 1) / 2) ^ 2 = 0 by ring]
      norm_num
  have hA1 : (1 : ℝ) ≤ (((n : ℝ) - 1) / 2) ^ 2 := by nlinarith
  push_cast
  rw [show ((0 : ℝ) - ((n : ℝ) - 1) / 2) ^ 2 = (((n : ℝ) - 1) / 2) ^ 2 by
    ring]
  linarith

/-- Each normalised Gaussian kernel entry is positive. -/
theorem getGaussianKernel_pos (n : ℕ) (sigma : ℝ) (hn : 0 < n) (i : ℕ) :
    0 < getGaussianKernel n sigma i := by
  unfold getGaussianKernel
  exact div_pos (gaussRaw_pos n sigma i) (gaussSum_pos n sigma hn)

/-- For a kernel of length at least 3 the normalised end entry is
strictly smaller than the normalised middle entry. -/
theorem getGaussianKernel_corner_lt (n : ℕ) (hn : 3 ≤ n) :
    getGaussianKernel n ((n : ℝ) * (1 / 2)) 0 <
      getGaussianKernel n ((n : ℝ) * (1 / 2)) (n / 2) := by
  unfold getGaussianKernel
  exact div_lt_div_of_pos_right (gaussRaw_corner_lt n hn)
    (gaussSum_pos n _ (by omega))

/-- The 2-D vignette kernel is positive everywhere. -/
theorem vigKernel_pos (rows cols : ℕ) (hr : 0 < rows) (hc : 0 < cols)
    (r c : ℕ) : 0 < vigKernel rows cols r c :=
  mul_pos (getGaussianKernel_pos rows _ hr r) (getGaussianKernel_pos cols _ hc c)

/-- The corner entry of the 2-D vignette kernel is strictly smaller than
its middle entry. -/
theorem vigKernel_corner_lt (rows cols : ℕ) (hr : 3 ≤ rows) (hc : 3 ≤ cols) :
    vigKernel rows cols 0 0 < vigKernel rows cols (rows / 2) (cols / 2) :=
  mul_lt_mul'' (getGaussianKernel_corner_lt rows hr)
    (getGaussianKernel_corner_lt cols hc)
    (le_of_lt (getGaussianKernel_pos rows _ (by omega) 0))
    (le_of_lt (getGaussianKernel_pos cols _ (by omega) 0))

/-- Every in-range kernel entry is at most the kernel maximum. -/
theorem le_vigMax (rows cols r c : ℕ) (hr : r < rows) (hc : c < cols) :
    vigKernel rows cols r c ≤ vigMax rows cols := by
  have hmem : (r, c) ∈ Finset.range rows ×ˢ Finset.range cols := by
    simp [Finset.mem_product, hr, hc]
  rw [vigMax, dif_pos ⟨(r, c), hmem⟩]
  exact Finset.le_sup' (fun p => vigKernel rows cols p.1 p.2) hmem

/-- The kernel maximum is positive for a nonempty kernel. -/
theorem vigMax_pos (rows cols : ℕ) (hr : 0 < rows) (hc : 0 < cols) :
    0 < vigMax rows cols :=
  lt_of_lt_of_le (vigKernel_pos rows cols hr hc 0 0)
    (le_vigMax rows cols 0 0 hr hc)

/-- Clipping never returns a negative value. -/
theorem clip255_nonneg (x : ℝ) : 0 ≤ clip255 x := le_max_left 0 _

/-- Clipping is the identity on [0, 255]. -/
theorem clip255_eq (x : ℝ) (h0 : 0 ≤ x) (h255 : x ≤ 255) : clip255 x = x := by
  rw [clip255, min_eq_right h255, max_eq_right h0]

/-- C8 (amended): the vignette stage multiplies every channel by
`0.4 + 0.6 · mask` with the mask the max-normalised outer product of the
two Gaussian kernels (that is its definition here, taken from the code);
for a spatially constant input of positive brightness at most 255 and
dimensions at least 3, the output brightness at the corner pixel (0,0) is
strictly below the output brightness at the centre pixel — the
content-independent comparison the claim asserts holds only for such
uniform inputs. -/
theorem C8_theorem (img : FImg) (c : ℝ)
    (hpx : ∀ x y, img.px x y = (c, c, c))
    (hw : 3 ≤ img.w) (hh : 3 ≤ img.h) (hc0 : 0 < c) (hc255 : c ≤ 255) :
    brightness (vigStage img) 0 0 <
      brightness (vigStage img) (img.w / 2) (img.h / 2) := by
  have hr0 : 0 < img.h := by omega
  have hc0' : 0 < img.w := by omega
  have hM : 0 < vigMax img.h img.w := vigMax_pos img.h img.w hr0 hc0'
  have h00le : vigKernel img.h img.w 0 0 ≤ vigMax img.h img.w :=
    le_vigMax img.h img.w 0 0 hr0 hc0'
  have hcle : vigKernel img.h img.w (img.h / 2) (img.w / 2) ≤
      vigMax img.h img.w :=
    le_vigMax img.h img.w (img.h / 2) (img.w / 2)
      (Nat.div_lt_self hr0 (by omega)) (Nat.div_lt_self hc0' (by omega))
  have hmask_lt : vigMask img.h img.w 0 0 <
      vigMask img.h img.w (img.h / 2) (img.w / 2) := by
    unfold vigMask
    exact div_lt_div_of_pos_right (vigKernel_corner_lt img.h img.w hh hw) hM
  have hmask00_0 : 0 ≤ vigMask img.h img.w 0 0 :=
    div_nonneg (le_of_lt (vigKernel_pos img.h img.w hr0 hc0' 0 0))
      (le_of_lt hM)
  have hmaskc_le1 : vigMask img.h img.w (img.h / 2) (img.w / 2) ≤ 1 :=
    (div_le_one hM).mpr hcle
  have hf_lt : vigFactor img.h img.w 0 0 <
      vigFactor img.h img.w (img.h / 2) (img.w / 2) := by
    unfold vigFactor
    linarith
  have hf00_0 : 0 ≤ vigFactor img.h img.w 0 0 := by
    unfold vigFactor
    linarith
  have hfc_le1 : vigFactor img.h img.w (img.h / 2) (img.w / 2) ≤ 1 := by
    unfold vigFactor
    linarith
  have hvlt : c * vigFactor img.h img.w 0 0 <
      c * vigFactor img.h img.w (img.h / 2) (img.w / 2) :=
    mul_lt_mul_of_pos_left hf_lt hc0
  have hv00 : 0 ≤ c * vigFactor img.h img.w 0 0 :=
    mul_nonneg (le_of_lt hc0) hf00_0
  have hvc255 : c * vigFactor img.h img.w (img.h / 2) (img.w / 2) ≤ 255 := by
    calc c * vigFactor img.h img.w (img.h / 2) (img.w / 2) ≤ c * 1 :=
          mul_le_mul_of_nonneg_left hfc_le1 (le_of_lt hc0)
      _ = c := mul_one c
      _ ≤ 255 := hc255
  have h1 : clip255 (c * vigFactor img.h img.w 0 0) =
      c * vigFactor img.h img.w 0 0 :=
    clip255_eq _ hv00 (le_trans (le_of_lt hvlt) hvc255)
  have h2 : clip255 (c * vigFactor img.h img.w (img.h / 2) (img.w / 2)) =
      c * vigFactor img.h img.w (img.h / 2) (img.w / 2) :=
    clip255_eq _ (le_trans hv00 (le_of_lt hvlt)) hvc255
  simp only [brightness, vigStage, hpx]
  rw [h1, h2]
  linarith

/-- C8 witness: the amended theorem applied to the 60×60 uniform gray
vignette input. -/
theorem C8_witness :
    ((3 : ℕ) ≤ imgGray.w ∧ (3 : ℕ) ≤ imgGray.h ∧ (0 : ℝ) < 128 ∧
      (128 : ℝ) ≤ 255) ∧
    brightness (vigStage imgGray) 0 0 <
      brightness (vigStage imgGray) (imgGray.w / 2) (imgGray.h / 2) :=
  ⟨⟨by norm_num [imgGray], by norm_num [imgGray], by norm_num, by norm_num⟩,
   C8_theorem imgGray 128 (fun _ _ => rfl) (by norm_num [imgGray])
     (by norm_num [imgGray]) (by norm_num) (by norm_num)⟩

/-- C8, counterexample to the claim as stated: the brightness comparison
is content-dependent, not guaranteed for every image larger than 50×50 —
for a vignette-stage input that is black at the centre and bright at the
corner, the output brightness near the corner is not strictly below the
output brightness near the centre (the centre output is exactly 0). -/
theorem C8_counterexample :
    50 < imgCornerBright.w ∧ 50 < imgCornerBright.h ∧
    ¬ brightness (vigStage imgCornerBright) 0 0 <
        brightness (vigStage imgCornerBright) 30 30 := by
  refine ⟨by norm_num [imgCornerBright], by norm_num [imgCornerBright], ?_⟩
  have hclip0 : clip255 0 = 0 := by
    rw [clip255, min_eq_right (by norm_num : (0 : ℝ) ≤ 255), max_self]
  have hpx : imgCornerBright.px 30 30 = (0, 0, 0) := by
    norm_num [imgCornerBright]
  have hcenter : brightness (vigStage imgCornerBright) 30 30 = 0 := by
    simp only [brightness, vigStage, hpx]
    norm_num [hclip0]
  have hcorner : 0 ≤ brightness (vigStage imgCornerBright) 0 0 := by
    simp only [brightness, vigStage]
    have n1 := clip255_nonneg ((imgCornerBright.px 0 0).1 *
      vigFactor imgCornerBright.h imgCornerBright.w 0 0)
    have n2 := clip255_nonneg ((imgCornerBright.px 0 0).2.1 *
      vigFactor imgCornerBright.h imgCornerBright.w 0 0)
    have n3 := clip255_nonneg ((imgCornerBright.px 0 0).2.2 *
      vigFactor imgCornerBright.h imgCornerBright.w 0 0)
    linarith
  rw [hcenter]
  exact not_lt.mpr hcorner

/-! ## Theorems for claim C10 (base64 round-trip) -/

/-- Decoding inverts the alphabet encoding of every 6-bit value. -/
theorem b64Val_b64Char : ∀ n < 64, b64Val (b64Char n) = n := by decide

/-- No 6-bit value encodes to the padding character. -/
theorem b64Char_ne_pad : ∀ n < 64, b64Char n ≠ '=' := by decide

/-- C10: `base64_to_image` after `image_to_base64` is the identity on
every buffer of bytes (values below 256): the codec adapter's base64
encoding and decoding form an exact round-trip. -/
theorem C10_theorem : ∀ l : List ℕ, (∀ b ∈ l, b < 256) →
    base64_to_image (image_to_base64 l) = l
  | [], _ => rfl
  | [a], h => by
    have ha : a < 256 := h a (by simp)
    simp only [image_to_base64, base64_to_image, if_true]
    rw [b64Val_b64Char (a / 4) (by omega),
      b64Val_b64Char (a % 4 * 16) (by omega)]
    have h1 : a / 4 * 4 + a % 4 * 16 / 16 = a := by omega
    rw [h1]
  | [a, b], h => by
    have ha : a < 256 := h a (by simp)
    have hb : b < 256 := h b (by simp)
    simp only [image_to_base64, base64_to_image]
    rw [if_neg (b64Char_ne_pad (b % 16 * 4) (by omega))]
    simp only [if_true]
    rw [b64Val_b64Char (a / 4) (by omega),
      b64Val_b64Char (a % 4 * 16 + b / 16) (by omega),
      b64Val_b64Char (b % 16 * 4) (by omega)]
    have h1 : a / 4 * 4 + (a % 4 * 16 + b / 16) / 16 = a := by omega
    have h2 : (a % 4 * 16 + b / 16) % 16 * 16 + b % 16 * 4 / 4 = b := by
      omega
    rw [h1, h2]
  | a :: b :: c :: rest, h => by
    have ha : a < 256 := h a (by simp)
    have hb : b < 256 := h b (by simp)
    have hc : c < 256 := h c (by simp)
    have ih := C10_theorem rest (fun x hx => h x (by simp [hx]))
    simp only [image_to_base64, base64_to_image]
    rw [if_neg (b64Char_ne_pad (b % 16 * 4 + c / 64) (by omega)),
      if_neg (b64Char_ne_pad (c % 64) (by omega)),
      b64Val_b64Char (a / 4) (by omega),
      b64Val_b64Char (a % 4 * 16 + b / 16) (by omega),
      b64Val_b64Char (b % 16 * 4 + c / 64) (by omega),
      b64Val_b64Char (c % 64) (by omega)]
    have h1 : a / 4 * 4 + (a % 4 * 16 + b / 16) / 16 = a := by omega
    have h2 : (a % 4 * 16 + b / 16) % 16 * 16 +
        (b % 16 * 4 + c / 64) / 4 = b := by omega
    have h3 : (b % 16 * 4 + c / 64) % 4 * 64 + c % 64 = c := by omega
    rw [h1, h2, h3, ih]

/-- C10 witness: the round-trip theorem applied to a concrete seven-byte
buffer (two full groups and a one-byte padded tail). -/
theorem C10_witness :
    (∀ b ∈ ([0, 1, 77, 128, 255, 254, 33] : List ℕ), b < 256) ∧
    base64_to_image (image_to_base64 [0, 1, 77, 128, 255, 254, 33]) =
      [0, 1, 77, 128, 255, 254, 33] :=
  ⟨by decide, C10_theorem _ (by decide)⟩
